import Mathlib

set_option maxRecDepth 100000

/-!
Shallow embedding of the price-list application core (`src/app.py`):

* the workbook parser `load_data_from_excel` (rows of cells → line items,
  with group inference from blank-price rows and fill-color extraction),
* the price-save patch `save_changes_to_file` (title-keyed in-place
  update of the price column), and
* the receipt layout logic of `generate_pdf_receipt` (greedy character
  shrink + word-boundary backtrack wrap, dot-fill, price column).

Text is modelled as `List Char`; Python floats as `ℚ`; fallible
operations as `Option`.  The two `while` loops of the receipt formatter
are modelled with explicit fuel (`shrinkAux`, `wrapGo`): fuel
`length + 1` is exactly enough whenever the Python loop terminates, and
exhaustion (`Option.none`) models divergence of the Python loop.
-/

/-- Cell values as the parser distinguishes them: `None`, strings, and
numbers (Python floats/ints modelled as `ℚ`). -/
inductive CellValue where
  | none : CellValue
  | str (s : String) : CellValue
  | num (q : ℚ) : CellValue
deriving DecidableEq

/-- A worksheet cell: its `value` plus the fill attributes read by the
parser (`cell.fill.patternType` and `cell.fill.fgColor.rgb`, each
possibly absent). -/
structure Cell where
  value : CellValue
  patternType : Option (List Char) := Option.none
  fgColorRgb : Option (List Char) := Option.none
deriving DecidableEq

/-- The all-empty cell, used as the out-of-range default (never reached
on rows that pass the length-5 check). -/
def dCell : Cell := { value := CellValue.none }

/-- A worksheet row, as the tuple of cells `iter_rows` yields. -/
abbrev Row := List Cell

/-- The source's emptiness test `v is None or v == ''` on a cell value.
`==` with `''` is only true for the empty string (numbers compare
unequal to `''` in Python). -/
def isEmptyV : CellValue → Bool
  | CellValue.none => true
  | CellValue.str s => s = ""
  | CellValue.num _ => false

/-- Python truthiness of a cell value (`None`, `''` and `0` are falsy),
used by the `or ''` defaults on the tag-text and time columns. -/
def truthy : CellValue → Bool
  | CellValue.none => false
  | CellValue.str s => s ≠ ""
  | CellValue.num q => q ≠ 0

/-- Python `v or ''`: keep a truthy value, otherwise the empty string. -/
def pyOr (v : CellValue) : CellValue :=
  if truthy v then v else CellValue.str ""

/-- Models Python `str()` on the cell values the parser feeds it.  For
strings it is the identity, which is the only case the claims exercise;
the numeric/None cases are carried along for completeness (Python's
float repr is approximated). -/
def pyStr : CellValue → String
  | CellValue.none => "None"
  | CellValue.str s => s
  | CellValue.num q => toString q.num ++ "/" ++ toString q.den

/-- Decimal digits of a character list, `foldl`-style. -/
def decDigitsToNat (l : List Char) : Nat :=
  l.foldl (fun a c => 10 * a + (c.toNat - 48)) 0

/-- Parses an unsigned decimal numeral `digits [. digits]` (at least one
digit overall, nothing left over), the core of the `float()` model. -/
def pyFloatCore (l : List Char) : Option ℚ :=
  let ip := l.takeWhile Char.isDigit
  let rest := l.dropWhile Char.isDigit
  match rest with
  | [] => if ip = [] then Option.none else some (decDigitsToNat ip : ℚ)
  | '.' :: rest2 =>
    let fp := rest2.takeWhile Char.isDigit
    let rest3 := rest2.dropWhile Char.isDigit
    if rest3 = [] ∧ (ip ≠ [] ∨ fp ≠ []) then
      some ((decDigitsToNat ip : ℚ) + (decDigitsToNat fp : ℚ) / (10 ^ fp.length : ℚ))
    else Option.none
  | _ => Option.none

/-- Python `str.strip()` (leading and trailing whitespace removed). -/
def trimWs (l : List Char) : List Char :=
  ((l.dropWhile Char.isWhitespace).reverse.dropWhile Char.isWhitespace).reverse

/-- Models Python `float(v)` as an `Option`: numbers coerce to
themselves, strings are stripped and parsed as optionally signed decimal
numerals, everything else (including `None`) fails.  (The exotic string
forms `float` also accepts — exponents, `inf`, `nan`, underscores — are
outside the inputs the spec and claims consider.) -/
def pyFloat? : CellValue → Option ℚ
  | CellValue.num q => some q
  | CellValue.str s =>
    match trimWs s.data with
    | '-' :: l => (pyFloatCore l).map (fun q => -q)
    | '+' :: l => pyFloatCore l
    | l => pyFloatCore l
  | CellValue.none => Option.none

/-- The color extraction of `load_data_from_excel` (lines 65–66): a tag
color is emitted only for a `'solid'` fill whose foreground RGB is
present (truthy) and is neither `'00000000'` nor `'FFFFFFFF'`; the value
is `f"#{rgb[2:]}".lower()`. -/
def tagColor (c : Cell) : Option (List Char) :=
  match c.fgColorRgb with
  | some r =>
    if c.patternType = some ("solid".data) ∧ r ≠ [] ∧
        r ≠ ("00000000".data) ∧ r ≠ ("FFFFFFFF".data) then
      some (('#' :: r.drop 2).map Char.toLower)
    else Option.none
  | Option.none => Option.none

/-- One parsed line item, mirroring the dict appended at lines 68–78 of
the source (`original_index` is `row_idx - 1` with `row_idx` the 1-based
`enumerate` counter over all sheet rows). -/
structure Item where
  original_index : Nat
  group : Option CellValue
  title : CellValue
  price : ℚ
  color_0_text : String
  color_0_color : Option (List Char)
  color_1_text : String
  color_1_color : Option (List Char)
  time : CellValue
deriving DecidableEq

/-- Title value of a row (column 0). -/
def titleOf (row : Row) : CellValue := (row.getD 0 dCell).value

/-- Price value of a row (column 3). -/
def priceOf (row : Row) : CellValue := (row.getD 3 dCell).value

/-- Row classification `is_group_header` (line 54), together with the
length-5 admission check: price empty/None and title non-empty. -/
def headerRow (row : Row) : Bool :=
  5 ≤ row.length && isEmptyV (priceOf row) && !(isEmptyV (titleOf row))

/-- Row classification `is_analysis_row` (line 55), together with the
length-5 admission check: price non-empty and title non-empty. -/
def analysisRow (row : Row) : Bool :=
  5 ≤ row.length && !(isEmptyV (priceOf row)) && !(isEmptyV (titleOf row))

/-- The item built for an analysis row (lines 60–78): price coerced with
`float`, falling back to `0.0` on failure; tag texts via `str(v or '')`;
tag colors via `tagColor`; `time` via `v or ''`. -/
def mkParsedItem (row : Row) (g : Option CellValue) (idx : Nat) : Item :=
  { original_index := idx - 1
  , group := g
  , title := titleOf row
  , price := (pyFloat? (priceOf row)).getD 0
  , color_0_text := pyStr (pyOr ((row.getD 1 dCell).value))
  , color_0_color := tagColor (row.getD 1 dCell)
  , color_1_text := pyStr (pyOr ((row.getD 2 dCell).value))
  , color_1_color := tagColor (row.getD 2 dCell)
  , time := pyOr ((row.getD 4 dCell).value) }

/-- The row loop of `load_data_from_excel` (lines 46–78): `g` is
`current_group`, `idx` the 1-based `enumerate` counter.  Rows shorter
than 5 cells are skipped; header rows update the group and emit nothing;
analysis rows emit an item; all other rows are skipped. -/
def parseGo : List Row → Option CellValue → Nat → List Item
  | [], _, _ => []
  | row :: rest, g, idx =>
    if row.length < 5 then parseGo rest g (idx + 1)
    else if headerRow row then parseGo rest (some (titleOf row)) (idx + 1)
    else if analysisRow row then mkParsedItem row g idx :: parseGo rest g (idx + 1)
    else parseGo rest g (idx + 1)

/-- Top entry `load_data_from_excel`: parse all rows starting with no group and
`enumerate` counter 1. -/
def load_data_from_excel (rows : List Row) : List Item :=
  parseGo rows Option.none 1

/-- The value of `current_group` after traversing `rows` starting from
`g` — the fold of group updates that `parseGo` performs. -/
def groupAfter : List Row → Option CellValue → Option CellValue
  | [], g => g
  | row :: rest, g =>
    if row.length < 5 then groupAfter rest g
    else if headerRow row then groupAfter rest (some (titleOf row))
    else groupAfter rest g

/-- The per-row update of `save_changes_to_file` (lines 98–100): when
the row has more than 3 cells, its title is a key of the price map, and
its price cell is non-empty, overwrite just the price cell's value with
the mapped price; otherwise leave the row alone.  The Python dict
`price_map` is modelled as a finite map on cell values. -/
def save_row (pm : CellValue → Option ℚ) (row : Row) : Row :=
  match pm (titleOf row) with
  | some p =>
    if 3 < row.length ∧ isEmptyV (priceOf row) = false then
      row.set 3 { row.getD 3 dCell with value := CellValue.num p }
    else row
  | Option.none => row

/-- The sheet-level effect of `save_changes_to_file`: the per-row patch
applied to every row (workbook loading/saving I/O is outside the model). -/
def save_changes_to_file (pm : CellValue → Option ℚ) (sheet : List Row) : List Row :=
  sheet.map (save_row pm)

/-! ## Receipt formatter (`generate_pdf_receipt`, lines 116–193) -/

/-- Rendered width of a text under injected per-character font metrics
`w`, matching fpdf's `get_string_width` (sum of glyph widths). -/
def strW (w : Char → ℚ) (l : List Char) : ℚ := (l.map w).sum

/-- Python `int()` on a rational: truncation toward zero. -/
def ratTrunc (q : ℚ) : Int := Int.tdiv q.num (q.den : Int)

/-- The inner shrink loop (lines 151–152): drop the last character while
the line is wider than the limit.  Structural fuel; with fuel
`length + 1` the loop state is reproduced exactly (see `shrinkLine`). -/
def shrinkAux (w : Char → ℚ) (W : ℚ) : Nat → List Char → List Char
  | 0, l => l
  | fuel + 1, l => if strW w l > W then shrinkAux w W fuel l.dropLast else l

/-- The inner shrink loop with its divergence made explicit: the Python
loop terminates exactly when some prefix reaches width `≤ W` (always the
case for `0 ≤ W`, since the empty prefix has width 0); otherwise it
spins forever, modelled as `Option.none`. -/
def shrinkLine (w : Char → ℚ) (W : ℚ) (l : List Char) : Option (List Char) :=
  let r := shrinkAux w W (l.length + 1) l
  if strW w r > W then Option.none else some r

/-- Python `str.rfind(' ')`, as the last index of a space if any. -/
def rfindSpace : List Char → Option Nat
  | [] => Option.none
  | c :: rest =>
    match rfindSpace rest with
    | some i => some (i + 1)
    | Option.none => if c = ' ' then some 0 else Option.none

/-- The word-boundary backtrack (lines 154–157): if the width-cut
prefix `l0` is shorter than the remaining text and contains a space at
positive index, cut back to the last space; otherwise keep `l0`. -/
def chooseLine (l0 remaining : List Char) : List Char :=
  if l0.length < remaining.length then
    match rfindSpace l0 with
    | some p => if 0 < p then l0.take p else l0
    | Option.none => l0
  else l0

/-- One iteration of the outer wrap loop (lines 150–160): shrink to the
width limit, back up to the last space if the line was cut and a space
exists at positive index, then strip the consumed prefix off the
remaining text. -/
def wrapStep (w : Char → ℚ) (W : ℚ) (remaining : List Char) :
    Option (List Char × List Char) :=
  match shrinkLine w W remaining with
  | Option.none => Option.none
  | some l0 =>
    let line := chooseLine l0 remaining
    some (line, trimWs (remaining.drop line.length))

/-- The outer wrap loop (lines 147–160) with structural fuel: while the
remaining text has positive width, emit one line and continue.  Fuel
exhaustion models divergence of the Python loop (each productive
iteration strictly shortens the remaining text, so fuel `length + 1` is
exactly enough whenever the loop terminates at all). -/
def wrapGo (w : Char → ℚ) (W : ℚ) : Nat → List Char → Option (List (List Char))
  | 0, remaining => if strW w remaining > 0 then Option.none else some []
  | fuel + 1, remaining =>
    if strW w remaining > 0 then
      match wrapStep w W remaining with
      | Option.none => Option.none
      | some (line, rest) => (wrapGo w W fuel rest).map (fun ls => line :: ls)
    else some []

/-- The `lines` list as produced by the wrap loop for a full title. -/
def wrapLines (w : Char → ℚ) (W : ℚ) (l : List Char) : Option (List (List Char)) :=
  wrapGo w W (l.length + 1) l

/-- One item of the formatter's input: the dict fields
`title` / `color_0_text` / `color_1_text` / `price` that
`generate_pdf_receipt` reads. -/
structure RItem where
  title : List Char
  color_0_text : List Char
  color_1_text : List Char
  price : ℚ
deriving DecidableEq

/-- Source line 137, the joined and stripped tag texts. -/
def colorTexts (c0 c1 : List Char) : List Char :=
  trimWs (List.intercalate [' '] (([c0, c1]).filter (fun t => t ≠ [])))

/-- Source line 138, `full_title`: append the tag texts in parentheses when some tag text
survives, else just the title. -/
def fullTitle (it : RItem) : List Char :=
  let ct := colorTexts it.color_0_text it.color_1_text
  if ct ≠ [] then it.title ++ (" (".data ++ ct ++ ")".data) else it.title

/-- Decimal digit character. -/
def digitChar (d : Nat) : Char := Char.ofNat (48 + d)

/-- Decimal digits of `n`, most significant first (fuel-structural). -/
def natDigitsAux : Nat → Nat → List Char
  | 0, _ => []
  | _ + 1, 0 => []
  | fuel + 1, n => natDigitsAux fuel (n / 10) ++ [digitChar (n % 10)]

/-- Decimal numeral of a natural number. -/
def natDigits (n : Nat) : List Char :=
  if n = 0 then ['0'] else natDigitsAux (n + 1) n

/-- Insert a comma after every 3 digits from the right (operates on the
reversed digit list). -/
def group3Aux : Nat → List Char → List Char
  | 0, l => l
  | fuel + 1, a :: b :: c :: d :: rest => a :: b :: c :: ',' :: group3Aux fuel (d :: rest)
  | _ + 1, l => l

/-- Thousands grouping of a digit list, as Python's `,` format flag. -/
def groupDigits (ds : List Char) : List Char :=
  (group3Aux ds.length ds.reverse).reverse

/-- Floor of a rational (`Int.fdiv` of numerator by denominator). -/
def ratFloor (q : ℚ) : Int := Int.fdiv q.num (q.den : Int)

/-- Round-half-even on a rational, the rounding of Python's `f`
formatting (idealized to exact arithmetic; Python rounds the binary
float, which agrees on the inputs considered here). -/
def roundHalfEven (x : ℚ) : Int :=
  let f := ratFloor x
  let r := x - (f : ℚ)
  if r < 1/2 then f
  else if 1/2 < r then f + 1
  else if Int.emod f 2 = 0 then f else f + 1

/-- Source line 141, the price text: two decimals, thousands commas, the
currency suffix. -/
def formatPrice (q : ℚ) : List Char :=
  let n : Int := roundHalfEven (q * 100)
  let m : Nat := n.natAbs
  (if q < 0 then ['-'] else [])
    ++ groupDigits (natDigits (m / 100))
    ++ '.' :: digitChar (m / 10 % 10) :: digitChar (m % 10)
    :: (" с".data)

/-- One typeset instruction of the receipt plan: a standalone wrapped
text line; a label+dots+price single line (first branch, lines 172–178);
or a dots+price line following a standalone label line (fallback branch,
lines 179–186). -/
inductive PlanEntry where
  | textRun (content : List Char) : PlanEntry
  | pricedLine (label : List Char) (dotCount : Nat) (priceText : List Char) : PlanEntry
  | dotsPrice (dotCount : Nat) (priceText : List Char) : PlanEntry
deriving DecidableEq

/-- Whether a plan contains a single-line label+dots+price entry. -/
def hasPricedLine (es : List PlanEntry) : Bool :=
  es.any (fun e => match e with
    | PlanEntry.pricedLine _ _ _ => true
    | _ => false)

/-- The per-item layout of `generate_pdf_receipt` (lines 136–186):
build the full title, wrap it, emit all but the last line as text runs,
then either a single label+dots+price line (when label and price fit
with the 5-unit margin) or the label alone followed by a dots+price
line.  `Option.none` models divergence of the wrap loop.  An empty wrap
result (`if not lines: continue`) emits nothing. -/
def layoutItem (w : Char → ℚ) (line_width : ℚ) (it : RItem) : Option (List PlanEntry) :=
  let price_str := formatPrice it.price
  let price_width := strW w price_str
  let dot_width := w '.'
  match wrapLines w line_width (fullTitle it) with
  | Option.none => Option.none
  | some lines =>
    match lines.getLast? with
    | Option.none => some []
    | some last_line =>
      let head_runs := (lines.dropLast).map PlanEntry.textRun
      let last_line_width := strW w last_line
      if last_line_width + price_width < line_width - 5 then
        let num_dots : Int :=
          if dot_width > 0 then ratTrunc ((line_width - last_line_width - price_width) / dot_width) else 0
        some (head_runs ++ [PlanEntry.pricedLine last_line (max 0 num_dots).toNat price_str])
      else
        let num_dots : Int :=
          if dot_width > 0 then ratTrunc ((line_width - price_width) / dot_width) else 0
        some (head_runs ++ [PlanEntry.textRun last_line, PlanEntry.dotsPrice (max 0 num_dots).toNat price_str])

/-- The item loop of `generate_pdf_receipt`: concatenated per-item plans
plus the running `total_sum_pdf` (accumulated per item regardless of
layout outcome, line 142). -/
def layoutItems (w : Char → ℚ) (line_width : ℚ) :
    List RItem → Option (List PlanEntry × ℚ)
  | [] => some ([], 0)
  | it :: rest =>
    match layoutItem w line_width it, layoutItems w line_width rest with
    | some es, some (es2, t) => some (es ++ es2, it.price + t)
    | _, _ => Option.none

/-- Function `generate_pdf_receipt` with the source's hardcoded
`line_width = 190` (line 134); font metrics are injected, as the spec's
formatter contract requires. -/
def generate_pdf_receipt (w : Char → ℚ) (items : List RItem) :
    Option (List PlanEntry × ℚ) :=
  layoutItems w 190 items

/-! ## Concrete fixtures used by witnesses and counterexamples -/

/-- Width function assigning every character width 1. -/
def wOne : Char → ℚ := fun _ => 1

/-- Width function assigning every character width 20. -/
def wTwenty : Char → ℚ := fun _ => 20

/-- Width function making exactly `'a'` as wide as the whole page. -/
def wPage : Char → ℚ := fun c => if c = 'a' then 190 else 1

/-- A group-header row: title `"Biochemistry"`, empty price cell. -/
def bioRow : Row :=
  [{ value := CellValue.str "Biochemistry" }, dCell, dCell, dCell, dCell]

/-- An analysis row: title `"Glucose"`, price cell `"250"`. -/
def gluRow : Row :=
  [{ value := CellValue.str "Glucose" }, dCell, dCell,
   { value := CellValue.str "250" }, dCell]

/-- An analysis row with an unparsable price string. -/
def badPriceRow : Row :=
  [{ value := CellValue.str "X" }, dCell, dCell,
   { value := CellValue.str "abc" }, dCell]

/-- A row with non-empty title and a whitespace-only price cell. -/
def spacePriceRow : Row :=
  [{ value := CellValue.str "X" }, dCell, dCell,
   { value := CellValue.str " " }, dCell]

/-- A `'solid'`-filled cell with ARGB `FFFF0000` (opaque red). -/
def redCell : Cell :=
  { value := CellValue.none, patternType := some ("solid".data),
    fgColorRgb := some ("FFFF0000".data) }

/-- Formatter item `"CBC"` at price 500, no tags. -/
def cbcItem : RItem := { title := "CBC".data, color_0_text := [], color_1_text := [], price := 500 }

/-- Formatter item with empty title and tags, price 250. -/
def emptyTitleItem : RItem := { title := [], color_0_text := [], color_1_text := [], price := 250 }

/-- Formatter item whose title is the single page-wide character `'a'`
(under `wPage`), price 5, no tags. -/
def pageWideItem : RItem := { title := "a".data, color_0_text := [], color_1_text := [], price := 5 }

/-- Price map sending `"Glucose"` to 300 and everything else nowhere. -/
def pmGlucose : CellValue → Option ℚ :=
  fun v => if v = CellValue.str "Glucose" then some 300 else Option.none

/-- The plan produced for `[cbcItem, emptyTitleItem]` under `wOne` at
page width 190: one priced line, 179 filler dots. -/
def cbcPlan : List PlanEntry :=
  [PlanEntry.pricedLine ("CBC".data) 179 ("500.00 с".data)]

/-! ## Parser lemmas -/

lemma parseGo_append (xs ys : List Row) (g : Option CellValue) (i : Nat) :
    parseGo (xs ++ ys) g i
      = parseGo xs g i ++ parseGo ys (groupAfter xs g) (i + xs.length) := by
  induction xs generalizing g i with
  | nil => simp [parseGo, groupAfter]
  | cons row rest ih =>
    have harith : i + 1 + rest.length = i + (rest.length + 1) := by omega
    by_cases h1 : row.length < 5
    · simp only [List.cons_append, parseGo, groupAfter, if_pos h1, List.append_eq,
        ih, harith, List.length_cons]
    · by_cases h2 : headerRow row
      · simp only [List.cons_append, parseGo, groupAfter, if_neg h1, if_pos h2,
          List.append_eq, ih, harith, List.length_cons]
      · by_cases h3 : analysisRow row
        · simp only [List.cons_append, parseGo, groupAfter, if_neg h1, if_neg h2,
            if_pos h3, List.append_eq, ih, harith, List.length_cons]
        · simp only [List.cons_append, parseGo, groupAfter, if_neg h1, if_neg h2,
            if_neg h3, List.append_eq, ih, harith, List.length_cons]

lemma groupAfter_of_no_header (rows : List Row) (g : Option CellValue)
    (h : ∀ r ∈ rows, headerRow r = false) : groupAfter rows g = g := by
  induction rows with
  | nil => rfl
  | cons row rest ih =>
    have hrow : headerRow row = false := h row (by simp)
    have hrest : ∀ r ∈ rest, headerRow r = false := fun r hr => h r (by simp [hr])
    by_cases h1 : row.length < 5
    · simp only [groupAfter, if_pos h1]; exact ih hrest
    · simp only [groupAfter, if_neg h1, hrow, Bool.false_eq_true, if_false]
      exact ih hrest

lemma parseGo_group_const (rows : List Row) (g : Option CellValue) (i : Nat)
    (h : ∀ r ∈ rows, headerRow r = false) :
    ∀ it ∈ parseGo rows g i, it.group = g := by
  induction rows generalizing i with
  | nil => intro it hit; simp [parseGo] at hit
  | cons row rest ih =>
    have hrow : headerRow row = false := h row (by simp)
    have hrest : ∀ r ∈ rest, headerRow r = false := fun r hr => h r (by simp [hr])
    intro it hit
    by_cases h1 : row.length < 5
    · simp only [parseGo, if_pos h1] at hit; exact ih (i + 1) hrest it hit
    · simp only [parseGo, if_neg h1, hrow, Bool.false_eq_true, if_false] at hit
      by_cases h3 : analysisRow row
      · simp only [if_pos h3, List.mem_cons] at hit
        rcases hit with rfl | hit
        · rfl
        · exact ih (i + 1) hrest it hit
      · simp only [h3, if_false] at hit
        exact ih (i + 1) hrest it hit

lemma headerRow_length (row : Row) (h : headerRow row = true) : ¬ row.length < 5 := by
  simp only [headerRow, Bool.and_eq_true, decide_eq_true_eq] at h
  omega

lemma parseGo_cons_header (row : Row) (rest : List Row) (g : Option CellValue) (i : Nat)
    (h : headerRow row = true) :
    parseGo (row :: rest) g i = parseGo rest (some (titleOf row)) (i + 1) := by
  simp only [parseGo, if_neg (headerRow_length row h), h, if_true]

/-- Claim C2: a row with empty price cell and non-empty title (a group
header) sets the running group, and every line item parsed after it, up
to the next header row, carries that header's title as its `group`: the
parse of `pre ++ hdr :: (mid ++ post)` splits around the header, and all
items arising from the header-free segment `mid` have
`group = some (titleOf hdr)`. -/
theorem group_header_propagates (pre : List Row) (hdr : Row) (mid post : List Row)
    (hh : headerRow hdr = true) (hm : ∀ r ∈ mid, headerRow r = false) :
    load_data_from_excel (pre ++ hdr :: (mid ++ post))
        = load_data_from_excel pre
          ++ parseGo mid (some (titleOf hdr)) (pre.length + 2)
          ++ parseGo post (some (titleOf hdr)) (pre.length + 2 + mid.length)
    ∧ ∀ it ∈ parseGo mid (some (titleOf hdr)) (pre.length + 2),
        it.group = some (titleOf hdr) := by
  constructor
  · unfold load_data_from_excel
    rw [parseGo_append pre (hdr :: (mid ++ post)) Option.none 1,
      parseGo_cons_header hdr (mid ++ post) (groupAfter pre Option.none) (1 + pre.length) hh,
      parseGo_append mid post (some (titleOf hdr)) (1 + pre.length + 1),
      groupAfter_of_no_header mid (some (titleOf hdr)) hm]
    have e1 : 1 + pre.length + 1 = pre.length + 2 := by omega
    rw [e1, List.append_assoc]
  · exact parseGo_group_const mid (some (titleOf hdr)) (pre.length + 2) hm

/-- Witness for C2 at the spec's scenario: a `"Biochemistry"` header row
followed by a `"Glucose"` line-item row — every item of the segment
after the header carries `group = "Biochemistry"`. -/
theorem group_header_propagates_witness :
    (parseGo [gluRow] (some (titleOf bioRow)) 2).Forall
      (fun it => it.group = some (titleOf bioRow)) := by
  have h := (group_header_propagates [] bioRow [gluRow] [] (by decide) (by decide)).2
  refine List.forall_iff_forall_mem.mpr ?_
  simpa using h

/-- Claim C3: an analysis row whose price cell does not coerce
numerically is emitted with `price = 0.0`, and parsing of the remaining
rows continues unaffected (same group state, next index). -/
theorem malformed_price_defaults_zero (row : Row) (rest : List Row)
    (g : Option CellValue) (idx : Nat)
    (ha : analysisRow row = true) (hp : pyFloat? (priceOf row) = Option.none) :
    parseGo (row :: rest) g idx = mkParsedItem row g idx :: parseGo rest g (idx + 1)
    ∧ (mkParsedItem row g idx).price = 0 := by
  have ha2 := ha
  simp only [analysisRow, Bool.and_eq_true, decide_eq_true_eq, Bool.not_eq_true'] at ha2
  obtain ⟨⟨hlen5, hpne⟩, htne⟩ := ha2
  have hhdr : headerRow row = false := by
    simp [headerRow, hpne]
  constructor
  · simp only [parseGo, if_neg (by omega : ¬ row.length < 5), hhdr,
      Bool.false_eq_true, if_false, ha, if_true]
  · simp only [mkParsedItem, hp, Option.getD_none]

/-- Witness for C3: the row titled `"X"` with price cell `"abc"` is
emitted with price 0 and the following `"Glucose"` row still parses. -/
theorem malformed_price_defaults_zero_witness :
    parseGo [badPriceRow, gluRow] Option.none 1
        = mkParsedItem badPriceRow Option.none 1 :: parseGo [gluRow] Option.none 2
    ∧ (mkParsedItem badPriceRow Option.none 1).price = 0 :=
  malformed_price_defaults_zero badPriceRow [gluRow] Option.none 1 (by decide) (by decide)

lemma tagColor_some_iff (c : Cell) (col : List Char) :
    tagColor c = some col ↔
      (c.patternType = some ("solid".data)
        ∧ ∃ r, c.fgColorRgb = some r ∧ r ≠ [] ∧ r ≠ ("00000000".data)
            ∧ r ≠ ("FFFFFFFF".data) ∧ col = '#' :: (r.drop 2).map Char.toLower) := by
  have hlow : Char.toLower '#' = '#' := by decide
  cases hr : c.fgColorRgb with
  | none =>
    simp only [tagColor, hr]
    constructor
    · intro h; exact absurd h (by simp)
    · rintro ⟨_, r, hr2, _⟩; exact absurd hr2 (by simp)
  | some r =>
    simp only [tagColor, hr]
    by_cases hc : c.patternType = some ("solid".data) ∧ r ≠ [] ∧
        r ≠ ("00000000".data) ∧ r ≠ ("FFFFFFFF".data)
    · rw [if_pos hc]
      obtain ⟨hpat, hne, h0, hF⟩ := hc
      constructor
      · intro h
        injection h with h
        refine ⟨hpat, r, rfl, hne, h0, hF, ?_⟩
        rw [← h, List.map_cons, hlow]
      · rintro ⟨_, r2, hr2, _, _, _, hcol⟩
        injection hr2 with hr2
        subst hr2
        rw [hcol, List.map_cons, hlow]
    · rw [if_neg hc]
      constructor
      · intro h; exact absurd h (by simp)
      · rintro ⟨hpat, r2, hr2, hne, h0, hF, _⟩
        injection hr2 with hr2
        subst hr2
        exact absurd ⟨hpat, hne, h0, hF⟩ hc

/-- Claim C4: a tag color is emitted iff the fill pattern is `'solid'`,
the foreground RGB is present (non-empty) and is neither `'00000000'`
nor `'FFFFFFFF'`; the emitted value is `'#'` followed by the lowercased
tail of the RGB with the leading alpha byte (2 hex digits) dropped — in
particular a 6-hex-digit tail (length-7 value) for an 8-digit ARGB. -/
theorem tag_color_characterization :
    (∀ (c : Cell) (col : List Char),
        tagColor c = some col ↔
          (c.patternType = some ("solid".data)
            ∧ ∃ r, c.fgColorRgb = some r ∧ r ≠ [] ∧ r ≠ ("00000000".data)
                ∧ r ≠ ("FFFFFFFF".data) ∧ col = '#' :: (r.drop 2).map Char.toLower))
    ∧ (∀ (c : Cell) (col r : List Char),
        tagColor c = some col → c.fgColorRgb = some r → r.length = 8 →
          col.length = 7) := by
  refine ⟨fun c col => tagColor_some_iff c col, fun c col r h hr hl => ?_⟩
  obtain ⟨_, r2, hr2, _, _, _, hcol⟩ := (tagColor_some_iff c col).mp h
  rw [hr] at hr2
  injection hr2 with hr2
  subst hr2
  rw [hcol]
  simp [List.length_map, List.length_drop, hl]

/-- Witness for C4: a solid fill with ARGB `FFFF0000` yields the
length-7 color `"#ff0000"`. -/
theorem tag_color_characterization_witness :
    tagColor redCell = some ("#ff0000".data) ∧ ("#ff0000".data).length = 7 := by
  have h : tagColor redCell = some ("#ff0000".data) :=
    (tag_color_characterization.1 redCell ("#ff0000".data)).mpr
      ⟨rfl, "FFFF0000".data, rfl, by decide, by decide, by decide, by decide⟩
  exact ⟨h, tag_color_characterization.2 redCell ("#ff0000".data) ("FFFF0000".data)
    h rfl (by decide)⟩

lemma parseGo_index_spec (rows : List Row) (g : Option CellValue) (i : Nat)
    (hi : 1 ≤ i) :
    ∀ it ∈ parseGo rows g i, ∃ j, j < rows.length
      ∧ it.original_index = i - 1 + j
      ∧ analysisRow (rows.getD j []) = true
      ∧ it.title = titleOf (rows.getD j []) := by
  induction rows generalizing g i with
  | nil => intro it hit; simp [parseGo] at hit
  | cons row rest ih =>
    intro it hit
    by_cases h1 : row.length < 5
    · simp only [parseGo, if_pos h1] at hit
      obtain ⟨j, hj, hoi, hana, hti⟩ := ih g (i + 1) (by omega) it hit
      refine ⟨j + 1, ?_, ?_, ?_, ?_⟩
      · simp only [List.length_cons]; omega
      · rw [hoi]; omega
      · simpa [List.getD_cons_succ] using hana
      · simpa [List.getD_cons_succ] using hti
    · by_cases h2 : headerRow row
      · simp only [parseGo, if_neg h1, h2, if_true] at hit
        obtain ⟨j, hj, hoi, hana, hti⟩ := ih (some (titleOf row)) (i + 1) (by omega) it hit
        refine ⟨j + 1, ?_, ?_, ?_, ?_⟩
        · simp only [List.length_cons]; omega
        · rw [hoi]; omega
        · simpa [List.getD_cons_succ] using hana
        · simpa [List.getD_cons_succ] using hti
      · by_cases h3 : analysisRow row
        · simp only [parseGo, if_neg h1, h2, Bool.false_eq_true, if_false, h3,
            if_true, List.mem_cons] at hit
          rcases hit with rfl | hit
          · refine ⟨0, ?_, ?_, ?_, ?_⟩
            · simp only [List.length_cons]; omega
            · simp [mkParsedItem]
            · simpa [List.getD_cons_zero] using h3
            · simp [mkParsedItem, List.getD_cons_zero]
          · obtain ⟨j, hj, hoi, hana, hti⟩ := ih g (i + 1) (by omega) it hit
            refine ⟨j + 1, ?_, ?_, ?_, ?_⟩
            · simp only [List.length_cons]; omega
            · rw [hoi]; omega
            · simpa [List.getD_cons_succ] using hana
            · simpa [List.getD_cons_succ] using hti
        · simp only [parseGo, if_neg h1, h2, Bool.false_eq_true, if_false, h3,
            if_false] at hit
          obtain ⟨j, hj, hoi, hana, hti⟩ := ih g (i + 1) (by omega) it hit
          refine ⟨j + 1, ?_, ?_, ?_, ?_⟩
          · simp only [List.length_cons]; omega
          · rw [hoi]; omega
          · simpa [List.getD_cons_succ] using hana
          · simpa [List.getD_cons_succ] using hti

lemma parseGo_index_pairwise (rows : List Row) (g : Option CellValue) (i : Nat)
    (hi : 1 ≤ i) :
    List.Pairwise (fun a b => a < b)
      ((parseGo rows g i).map (fun it => it.original_index)) := by
  induction rows generalizing g i with
  | nil => simp [parseGo]
  | cons row rest ih =>
    by_cases h1 : row.length < 5
    · simp only [parseGo, if_pos h1]; exact ih g (i + 1) (by omega)
    · by_cases h2 : headerRow row
      · simp only [parseGo, if_neg h1, h2, if_true]
        exact ih (some (titleOf row)) (i + 1) (by omega)
      · by_cases h3 : analysisRow row
        · simp only [parseGo, if_neg h1, h2, Bool.false_eq_true, if_false, h3,
            if_true, List.map_cons]
          refine List.pairwise_cons.mpr ⟨?_, ih g (i + 1) (by omega)⟩
          intro b hb
          simp only [List.mem_map] at hb
          obtain ⟨it, hit, rfl⟩ := hb
          obtain ⟨j, _, hoi, _, _⟩ := parseGo_index_spec rest g (i + 1) (by omega) it hit
          have hmk : (mkParsedItem row g i).original_index = i - 1 := rfl
          rw [hmk, hoi]; omega
        · simp only [parseGo, if_neg h1, h2, Bool.false_eq_true, if_false, h3,
            if_false]
          exact ih g (i + 1) (by omega)

/-- Amended claim C5: each emitted item's `original_index` is the
0-based position of its source row in the sheet (counting every sheet
row, headers and short rows included) — not its position among emitted
items — and consequently the emitted indices are strictly increasing. -/
theorem source_row_index_is_sheet_position (rows : List Row) :
    List.Pairwise (fun a b => a < b)
        ((load_data_from_excel rows).map (fun it => it.original_index))
    ∧ ∀ it ∈ load_data_from_excel rows, ∃ j, j < rows.length
        ∧ it.original_index = j
        ∧ analysisRow (rows.getD j []) = true
        ∧ it.title = titleOf (rows.getD j []) := by
  refine ⟨parseGo_index_pairwise rows Option.none 1 (le_refl 1), ?_⟩
  intro it hit
  obtain ⟨j, hj, hoi, hana, hti⟩ :=
    parseGo_index_spec rows Option.none 1 (le_refl 1) it hit
  exact ⟨j, hj, by simpa using hoi, hana, hti⟩

/-- Witness for the amended C5 on the header-then-item sheet. -/
theorem source_row_index_is_sheet_position_witness :
    List.Pairwise (fun a b => a < b)
        ((load_data_from_excel [bioRow, gluRow]).map (fun it => it.original_index)) :=
  (source_row_index_is_sheet_position [bioRow, gluRow]).1

/-- Counterexample to C5 as stated: after a header row, the single
emitted item has `original_index = 1` (its sheet position), not `0`
(its position among emitted items). -/
theorem source_row_index_counterexample :
    (load_data_from_excel [bioRow, gluRow]).map (fun it => it.original_index) = [1]
    ∧ (load_data_from_excel [bioRow, gluRow]).map (fun it => it.original_index) ≠ [0] := by
  with_unfolding_all decide

lemma pyFloat_ws_none (s : String)
    (hws : ∀ c ∈ s.data, c.isWhitespace = true) :
    pyFloat? (CellValue.str s) = Option.none := by
  have ht : trimWs s.data = [] := by
    unfold trimWs
    rw [List.dropWhile_eq_nil_iff.mpr (fun x hx => hws x hx)]
    rfl
  simp [pyFloat?, ht, pyFloatCore]

/-- Amended claim C8: the source's emptiness test is exactly
`is None or == ''` with no whitespace normalization, so a row with
non-empty title and a whitespace-only price string is *not* a group
header: it is classified as a line item, emitted with `price = 0.0`
(the `float` coercion of whitespace fails), and the running group is
left unchanged for the remaining rows. -/
theorem whitespace_price_is_line_item (row : Row) (rest : List Row)
    (g : Option CellValue) (idx : Nat) (s : String)
    (hlen : 5 ≤ row.length) (hps : priceOf row = CellValue.str s)
    (hne : s.data ≠ []) (hws : ∀ c ∈ s.data, c.isWhitespace = true)
    (hte : isEmptyV (titleOf row) = false) :
    headerRow row = false
    ∧ parseGo (row :: rest) g idx = mkParsedItem row g idx :: parseGo rest g (idx + 1)
    ∧ (mkParsedItem row g idx).price = 0 := by
  have hsne : s ≠ "" := fun h => hne (by rw [h])
  have hpe : isEmptyV (priceOf row) = false := by
    rw [hps]; simp [isEmptyV, hsne]
  have hana : analysisRow row = true := by simp [analysisRow, hlen, hpe, hte]
  have hhdr : headerRow row = false := by simp [headerRow, hpe]
  have hpf : pyFloat? (priceOf row) = Option.none := by
    rw [hps]; exact pyFloat_ws_none s hws
  refine ⟨hhdr, ?_, ?_⟩
  · simp only [parseGo, if_neg (by omega : ¬ row.length < 5), hhdr,
      Bool.false_eq_true, if_false, hana, if_true]
  · simp only [mkParsedItem, hpf, Option.getD_none]

/-- Witness for the amended C8 at the row titled `"X"` with price cell
`" "`. -/
theorem whitespace_price_is_line_item_witness :
    headerRow spacePriceRow = false
    ∧ parseGo [spacePriceRow, gluRow] Option.none 1
        = mkParsedItem spacePriceRow Option.none 1 :: parseGo [gluRow] Option.none 2
    ∧ (mkParsedItem spacePriceRow Option.none 1).price = 0 :=
  whitespace_price_is_line_item spacePriceRow [gluRow] Option.none 1 " "
    (by decide) (by decide) (by decide) (by decide) (by decide)

/-- Counterexample to C8 as stated: the whitespace-priced row emits a
line item (price 0, group not set) instead of acting as a group header
for the following `"Glucose"` row. -/
theorem whitespace_price_counterexample :
    (load_data_from_excel [spacePriceRow, gluRow]).map
        (fun it => (it.original_index, it.group, it.title, it.price))
      = [(0, Option.none, CellValue.str "X", 0),
         (1, Option.none, CellValue.str "Glucose", 250)]
    ∧ groupAfter [spacePriceRow] Option.none = Option.none
    ∧ headerRow spacePriceRow = false := by
  with_unfolding_all decide

lemma getD_set_ne {α : Type} (l : List α) (i j : Nat) (a d : α) (h : i ≠ j) :
    (l.set i a).getD j d = l.getD j d := by
  induction l generalizing i j with
  | nil => simp [List.set]
  | cons x xs ih =>
    cases i with
    | zero =>
      cases j with
      | zero => omega
      | succ j2 => simp [List.set, List.getD_cons_succ]
    | succ i2 =>
      cases j with
      | zero => simp [List.set, List.getD_cons_zero]
      | succ j2 =>
        simp only [List.set, List.getD_cons_succ]
        exact ih i2 j2 (by omega)

lemma getD_set_self {α : Type} (l : List α) (i : Nat) (a d : α) (h : i < l.length) :
    (l.set i a).getD i d = a := by
  induction l generalizing i with
  | nil => simp at h
  | cons x xs ih =>
    cases i with
    | zero => simp [List.set]
    | succ i2 =>
      simp only [List.set, List.getD_cons_succ]
      exact ih i2 (by simpa using h)

/-- Claim C9: the save operation is a narrow, title-keyed patch: it maps
each row independently; a row is rewritten only when it has more than 3
cells, its title is a key of the price map, and its price cell is
non-empty — and then only the value of cell 3 changes (every other cell,
and the fill style of cell 3, are untouched).  Rows with an empty price
cell (group headers) and rows with unmapped titles are returned
unchanged. -/
theorem save_frame (pm : CellValue → Option ℚ) (sheet : List Row) :
    save_changes_to_file pm sheet = sheet.map (save_row pm)
    ∧ (save_changes_to_file pm sheet).length = sheet.length
    ∧ ∀ row ∈ sheet,
        (save_row pm row).length = row.length
        ∧ (∀ i, i ≠ 3 → (save_row pm row).getD i dCell = row.getD i dCell)
        ∧ ((save_row pm row).getD 3 dCell).patternType = (row.getD 3 dCell).patternType
        ∧ ((save_row pm row).getD 3 dCell).fgColorRgb = (row.getD 3 dCell).fgColorRgb
        ∧ (isEmptyV (priceOf row) = true → save_row pm row = row)
        ∧ (pm (titleOf row) = Option.none → save_row pm row = row)
        ∧ ∀ p, pm (titleOf row) = some p → 3 < row.length →
            isEmptyV (priceOf row) = false →
            save_row pm row = row.set 3 { row.getD 3 dCell with value := CellValue.num p } := by
  refine ⟨rfl, by simp [save_changes_to_file], ?_⟩
  intro row _
  cases hm : pm (titleOf row) with
  | none =>
    have hrow : save_row pm row = row := by simp [save_row, hm]
    rw [hrow]
    refine ⟨rfl, fun i _ => rfl, rfl, rfl, fun _ => rfl, fun _ => rfl, ?_⟩
    intro p hp
    exact absurd hp (by simp)
  | some p0 =>
    by_cases hc : 3 < row.length ∧ isEmptyV (priceOf row) = false
    · have hrow : save_row pm row
          = row.set 3 { row.getD 3 dCell with value := CellValue.num p0 } := by
        simp [save_row, hm, hc]
      refine ⟨?_, ?_, ?_, ?_, ?_, ?_, ?_⟩
      · rw [hrow, List.length_set]
      · intro i hi
        rw [hrow, getD_set_ne _ _ _ _ _ (fun h => hi h.symm)]
      · rw [hrow, getD_set_self _ _ _ _ hc.1]
      · rw [hrow, getD_set_self _ _ _ _ hc.1]
      · intro h
        rw [hc.2] at h
        exact absurd h (by simp)
      · intro h
        exact absurd h (by simp)
      · intro p hp _ _
        injection hp with hp
        subst hp
        exact hrow
    · have hrow : save_row pm row = row := by simp [save_row, hm, hc]
      refine ⟨by rw [hrow], fun i _ => by rw [hrow], by rw [hrow], by rw [hrow],
        fun _ => hrow, fun h => absurd h (by simp), ?_⟩
      intro p hp h3 hpe
      exact absurd ⟨h3, hpe⟩ hc

/-- Witness for C9: the header row (empty price) is untouched; the
`"Glucose"` row gets exactly its price cell value replaced by 300. -/
theorem save_frame_witness :
    save_row pmGlucose bioRow = bioRow
    ∧ save_row pmGlucose gluRow
        = gluRow.set 3 { gluRow.getD 3 dCell with value := CellValue.num 300 } := by
  refine ⟨?_, ?_⟩
  · exact ((save_frame pmGlucose [bioRow, gluRow]).2.2 bioRow
      (by simp)).2.2.2.2.1 (by decide)
  · exact ((save_frame pmGlucose [bioRow, gluRow]).2.2 gluRow
      (by simp)).2.2.2.2.2.2 300 (by with_unfolding_all decide) (by decide) (by decide)

/-! ## Formatter lemmas -/

lemma strW_nil (w : Char → ℚ) : strW w [] = 0 := rfl

lemma ne_nil_of_strW_pos {w : Char → ℚ} {l : List Char} (h : strW w l > 0) :
    l ≠ [] := by
  intro he
  subst he
  simp [strW] at h

lemma shrinkAux_ne_nil (w : Char → ℚ) (W : ℚ) :
    ∀ (fuel : Nat) (l : List Char), l ≠ [] → (∀ c ∈ l, w c ≤ W) →
      shrinkAux w W fuel l ≠ [] := by
  intro fuel
  induction fuel with
  | zero => intro l hne _; simpa [shrinkAux] using hne
  | succ n ih =>
    intro l hne hb
    simp only [shrinkAux]
    by_cases h : strW w l > W
    · rw [if_pos h]
      cases l with
      | nil => exact absurd rfl hne
      | cons c cs =>
        cases cs with
        | nil =>
          exfalso
          have hc : strW w [c] = w c := by simp [strW]
          rw [hc] at h
          exact absurd h (not_lt.mpr (hb c (by simp)))
        | cons c2 cs2 =>
          apply ih
          · simp [List.dropLast]
          · intro x hx
            exact hb x (List.dropLast_subset _ hx)
    · rw [if_neg h]; exact hne

lemma shrinkAux_le (w : Char → ℚ) (W : ℚ) (hW : 0 ≤ W) :
    ∀ (fuel : Nat) (l : List Char), l.length < fuel →
      strW w (shrinkAux w W fuel l) ≤ W := by
  intro fuel
  induction fuel with
  | zero => intro l h; omega
  | succ n ih =>
    intro l hl
    simp only [shrinkAux]
    by_cases h : strW w l > W
    · rw [if_pos h]
      cases l with
      | nil =>
        exfalso
        rw [strW_nil] at h
        exact absurd h (not_lt.mpr hW)
      | cons c cs =>
        apply ih
        simp only [List.length_dropLast, List.length_cons] at *
        omega
    · rw [if_neg h]
      exact not_lt.mp h

lemma shrinkLine_eq (w : Char → ℚ) (W : ℚ) (hW : 0 ≤ W) (l : List Char) :
    shrinkLine w W l = some (shrinkAux w W (l.length + 1) l) := by
  simp only [shrinkLine]
  rw [if_neg (not_lt.mpr (shrinkAux_le w W hW (l.length + 1) l (by omega)))]

lemma trimWs_subset (l : List Char) : trimWs l ⊆ l := by
  intro x hx
  unfold trimWs at hx
  rw [List.mem_reverse] at hx
  have hx2 := (List.dropWhile_suffix Char.isWhitespace).sublist.subset hx
  rw [List.mem_reverse] at hx2
  exact (List.dropWhile_suffix Char.isWhitespace).sublist.subset hx2

lemma trimWs_length_le (l : List Char) : (trimWs l).length ≤ l.length := by
  unfold trimWs
  calc (((l.dropWhile Char.isWhitespace).reverse.dropWhile Char.isWhitespace).reverse).length
      = ((l.dropWhile Char.isWhitespace).reverse.dropWhile Char.isWhitespace).length :=
        List.length_reverse _
    _ ≤ (l.dropWhile Char.isWhitespace).reverse.length :=
        (List.dropWhile_suffix Char.isWhitespace).sublist.length_le
    _ = (l.dropWhile Char.isWhitespace).length := List.length_reverse _
    _ ≤ l.length := (List.dropWhile_suffix Char.isWhitespace).sublist.length_le

lemma chooseLine_ne_nil (l0 remaining : List Char) (h : l0 ≠ []) :
    chooseLine l0 remaining ≠ [] := by
  unfold chooseLine
  split
  · split
    · rename_i p _
      split
      · rename_i hp
        intro hteq
        rw [List.take_eq_nil_iff] at hteq
        rcases hteq with h1 | h1
        · omega
        · exact h h1
      · exact h
    · exact h
  · exact h

lemma chooseLine_of_no_space (l0 remaining : List Char)
    (h : rfindSpace l0 = Option.none) : chooseLine l0 remaining = l0 := by
  unfold chooseLine
  split
  · rw [h]
  · rfl

lemma wrapStep_spec (w : Char → ℚ) (W : ℚ) (remaining : List Char)
    (hne : remaining ≠ []) (hb : ∀ c ∈ remaining, 0 < w c ∧ w c ≤ W) :
    ∃ line rest, wrapStep w W remaining = some (line, rest)
      ∧ rest.length < remaining.length ∧ rest ⊆ remaining := by
  have hW : 0 ≤ W := by
    cases remaining with
    | nil => exact absurd rfl hne
    | cons c cs =>
      have h := hb c (by simp)
      linarith [h.1, h.2]
  have hl0ne : shrinkAux w W (remaining.length + 1) remaining ≠ [] :=
    shrinkAux_ne_nil w W _ remaining hne (fun c hc => (hb c hc).2)
  have hline : shrinkLine w W remaining
      = some (shrinkAux w W (remaining.length + 1) remaining) :=
    shrinkLine_eq w W hW remaining
  have hcne : chooseLine (shrinkAux w W (remaining.length + 1) remaining) remaining ≠ [] :=
    chooseLine_ne_nil _ _ hl0ne
  refine ⟨chooseLine (shrinkAux w W (remaining.length + 1) remaining) remaining,
    trimWs (remaining.drop
      (chooseLine (shrinkAux w W (remaining.length + 1) remaining) remaining).length),
    ?_, ?_, ?_⟩
  · simp only [wrapStep, hline]
  · have h1 : 1 ≤ (chooseLine (shrinkAux w W (remaining.length + 1) remaining)
        remaining).length := by
      rcases Nat.eq_zero_or_pos (chooseLine (shrinkAux w W (remaining.length + 1)
          remaining) remaining).length with h0 | h0
      · exact absurd (List.length_eq_zero.mp h0) hcne
      · exact h0
    have h2 : 1 ≤ remaining.length := by
      cases remaining with
      | nil => exact absurd rfl hne
      | cons c cs => simp
    calc (trimWs (remaining.drop
          (chooseLine (shrinkAux w W (remaining.length + 1) remaining) remaining).length)).length
        ≤ (remaining.drop
          (chooseLine (shrinkAux w W (remaining.length + 1) remaining) remaining).length).length :=
          trimWs_length_le _
      _ = remaining.length
          - (chooseLine (shrinkAux w W (remaining.length + 1) remaining) remaining).length := by
          rw [List.length_drop]
      _ < remaining.length := by omega
  · exact fun x hx => List.drop_subset _ _ (trimWs_subset _ hx)

lemma wrapGo_isSome (w : Char → ℚ) (W : ℚ) :
    ∀ (fuel : Nat) (remaining : List Char),
      (∀ c ∈ remaining, 0 < w c ∧ w c ≤ W) → remaining.length < fuel →
      (wrapGo w W fuel remaining).isSome = true := by
  intro fuel
  induction fuel with
  | zero => intro r _ h; omega
  | succ n ih =>
    intro r hb hlen
    simp only [wrapGo]
    by_cases h0 : strW w r > 0
    · rw [if_pos h0]
      obtain ⟨line, rest, heq, hlt, hsub⟩ :=
        wrapStep_spec w W r (ne_nil_of_strW_pos h0) hb
      rw [heq]
      show ((wrapGo w W n rest).map (fun ls => line :: ls)).isSome = true
      cases hw : wrapGo w W n rest with
      | none =>
        have hs := ih rest (fun c hc => hb c (hsub hc)) (by omega)
        rw [hw] at hs
        simp at hs
      | some ls => rfl
    · rw [if_neg h0]; rfl

/-- Claim C10: when every character of the title has positive rendered
width no greater than the page width, the wrap loop terminates (fuel
`length + 1` suffices, because each iteration strictly shortens the
remaining text); and the precondition is load-bearing: for a single
non-whitespace character wider than the page, the iteration leaves the
remaining text unshrunk, so the loop diverges at every fuel. -/
theorem wrap_terminates_iff_chars_fit :
    (∀ (w : Char → ℚ) (W : ℚ) (title : List Char),
        (∀ c ∈ title, 0 < w c ∧ w c ≤ W) →
        (wrapLines w W title).isSome = true)
    ∧ (∀ (w : Char → ℚ) (W : ℚ) (c : Char),
        0 ≤ W → W < w c → c.isWhitespace = false →
        ∀ fuel, wrapGo w W fuel [c] = Option.none) := by
  constructor
  · intro w W title hb
    exact wrapGo_isSome w W (title.length + 1) title hb (by omega)
  · intro w W c hW hc hws fuel
    have hstrW : strW w [c] = w c := by simp [strW]
    have hpos : strW w [c] > 0 := by rw [hstrW]; linarith
    have h1 : shrinkAux w W 2 [c] = [] := by
      show (if strW w [c] > W then shrinkAux w W 1 ([c].dropLast) else [c]) = []
      rw [if_pos (by rw [hstrW]; exact hc)]
      show (if strW w [] > W then shrinkAux w W 0 ([].dropLast) else ([] : List Char)) = []
      rw [if_neg (by rw [strW_nil]; exact not_lt.mpr hW)]
    have hsl : shrinkLine w W [c] = some [] := by
      simp only [shrinkLine]
      have h2 : ([c] : List Char).length + 1 = 2 := rfl
      rw [h2, h1, strW_nil, if_neg (not_lt.mpr hW)]
    have htrim : trimWs [c] = [c] := by
      simp [trimWs, List.dropWhile_cons, hws]
    have hstep : wrapStep w W [c] = some ([], [c]) := by
      simp only [wrapStep, hsl, chooseLine_of_no_space ([] : List Char) [c] rfl]
      rw [show ([c] : List Char).drop ([] : List Char).length = [c] from rfl, htrim]
    induction fuel with
    | zero => simp [wrapGo, hpos]
    | succ n ihf =>
      simp only [wrapGo]
      rw [if_pos hpos, hstep]
      show (wrapGo w W n [c]).map (fun ls => [] :: ls) = Option.none
      rw [ihf]
      rfl

/-- Witness for C10: unit-width characters wrap within width 2; the
single character `'X'` of width 20 on a width-10 page diverges. -/
theorem wrap_terminates_iff_chars_fit_witness :
    (wrapLines wOne 2 ("ab".data)).isSome = true
    ∧ wrapGo wTwenty 10 5 ['X'] = Option.none := by
  constructor
  · exact wrap_terminates_iff_chars_fit.1 wOne 2 ("ab".data)
      (fun c _ => ⟨by show (0:ℚ) < 1; with_unfolding_all decide,
        by show (1:ℚ) ≤ 2; with_unfolding_all decide⟩)
  · exact wrap_terminates_iff_chars_fit.2 wTwenty 10 'X'
      (by with_unfolding_all decide) (by with_unfolding_all decide) (by decide) 5

/-- Amended claim C6: the wrap does break inside words.  The width-cut
prefix never exceeds the page width, and when it contains no space the
emitted line is that prefix itself — a mid-word cut kept within the
width limit — rather than the whole word overflowing on its own line. -/
theorem wrap_midword_cut (w : Char → ℚ) (W : ℚ) (r l0 : List Char)
    (h : shrinkLine w W r = some l0) :
    strW w l0 ≤ W
    ∧ (rfindSpace l0 = Option.none →
        wrapStep w W r = some (l0, trimWs (r.drop l0.length))) := by
  constructor
  · simp only [shrinkLine] at h
    by_cases hgt : strW w (shrinkAux w W (r.length + 1) r) > W
    · rw [if_pos hgt] at h
      exact absurd h (by simp)
    · rw [if_neg hgt] at h
      injection h with h
      rw [← h]
      exact not_lt.mp hgt
  · intro hrf
    simp only [wrapStep, h, chooseLine_of_no_space l0 r hrf]

/-- Witness for the amended C6: the space-free `"abcde"` at unit widths
and page width 3 is cut to the fitting prefix `"abc"`, within the limit. -/
theorem wrap_midword_cut_witness :
    strW wOne ("abc".data) ≤ 3
    ∧ wrapStep wOne 3 ("abcde".data)
        = some ("abc".data, trimWs (("abcde".data).drop ("abc".data).length)) := by
  have h := wrap_midword_cut wOne 3 ("abcde".data) ("abc".data)
    (by with_unfolding_all decide)
  exact ⟨h.1, h.2 (by decide)⟩

/-- Counterexample to C6 as stated: the single space-free word
`"abcde"`, wider than page width 3 under unit widths, is split mid-word
into `"abc"` / `"de"` instead of being kept intact on an overflowing
line. -/
theorem midword_split_counterexample :
    rfindSpace ("abcde".data) = Option.none
    ∧ wrapLines wOne 3 ("abcde".data) = some [("abc".data), ("de".data)]
    ∧ wrapLines wOne 3 ("abcde".data) ≠ some [("abcde".data)] := by
  refine ⟨by decide, by with_unfolding_all decide, by with_unfolding_all decide⟩

/-- Amended claim C7: an item whose last wrapped line is exactly as wide
as the page cannot satisfy the margin test
`lineWidth(last) + lineWidth(price) < page_width − 5` (the price width
is nonnegative), so the formatter takes the two-line fallback: the label
alone on its own line, followed by a dots+price line whose dot count is
`int((page_width − price_width) / dot_width)` clamped to ≥ 0 — not a
single-line priced entry with zero dots. -/
theorem exact_width_two_line_fallback (w : Char → ℚ) (W : ℚ) (it : RItem)
    (lines : List (List Char)) (last : List Char)
    (hwrap : wrapLines w W (fullTitle it) = some lines)
    (hlast : lines.getLast? = some last)
    (hw : strW w last = W)
    (hpw : 0 ≤ strW w (formatPrice it.price)) :
    layoutItem w W it
      = some ((lines.dropLast).map PlanEntry.textRun
          ++ [PlanEntry.textRun last,
              PlanEntry.dotsPrice
                (max 0 (if w '.' > 0 then
                    ratTrunc ((W - strW w (formatPrice it.price)) / w '.') else 0)).toNat
                (formatPrice it.price)]) := by
  have hcond : ¬ (strW w last + strW w (formatPrice it.price) < W - 5) := by
    rw [hw]
    intro hlt
    linarith
  simp only [layoutItem, hwrap, hlast]
  rw [if_neg hcond]

/-- Witness for the amended C7: the page-wide single-character title
`"a"` under `wPage` yields the label line then a 184-dot price line. -/
theorem exact_width_two_line_fallback_witness :
    layoutItem wPage 190 pageWideItem
      = some [PlanEntry.textRun ("a".data),
          PlanEntry.dotsPrice 184 (formatPrice (5 : ℚ))] := by
  have h := exact_width_two_line_fallback wPage 190 pageWideItem [("a".data)] ("a".data)
    (by with_unfolding_all decide) (by decide) (by with_unfolding_all decide)
    (by with_unfolding_all decide)
  rw [h]
  with_unfolding_all decide

/-- Counterexample to C7 as stated: for a last line exactly as wide as
the page (width 190 under `wPage`) and a short price text, the layout
emits a standalone label line and a 184-dot price line — no single-line
`pricedLine` with `dot_count = 0` appears. -/
theorem exact_width_counterexample :
    layoutItem wPage 190 pageWideItem
      = some [PlanEntry.textRun ("a".data),
          PlanEntry.dotsPrice 184 (formatPrice (5 : ℚ))]
    ∧ hasPricedLine ((layoutItem wPage 190 pageWideItem).getD []) = false
    ∧ strW wPage ("a".data) = 190 := by
  refine ⟨by with_unfolding_all decide, by with_unfolding_all decide,
    by with_unfolding_all decide⟩

/-- Claim C1: whenever the formatter produces a plan, its grand total is
exactly the sum of the items' prices, for every width function, page
width and item list — wrapping never affects the total; and an item
whose full title is empty emits no plan entries (while its price is
still counted by the fold). -/
theorem receipt_total_eq_sum :
    (∀ (w : Char → ℚ) (W : ℚ) (items : List RItem) (res : List PlanEntry × ℚ),
        layoutItems w W items = some res → res.2 = (items.map RItem.price).sum)
    ∧ (∀ (w : Char → ℚ) (W : ℚ) (it : RItem),
        it.title = [] → it.color_0_text = [] → it.color_1_text = [] →
        layoutItem w W it = some []) := by
  constructor
  · intro w W items
    induction items with
    | nil =>
      intro res h
      simp only [layoutItems] at h
      injection h with h
      rw [← h]
      simp
    | cons it rest ih =>
      intro res h
      simp only [layoutItems] at h
      cases hi : layoutItem w W it with
      | none => rw [hi] at h; exact absurd h (by simp)
      | some es =>
        cases hr : layoutItems w W rest with
        | none => rw [hi, hr] at h; exact absurd h (by simp)
        | some res2 =>
          obtain ⟨es2, t⟩ := res2
          rw [hi, hr] at h
          injection h with h
          rw [← h]
          simp only [List.map_cons, List.sum_cons]
          have ht2 : t = (rest.map RItem.price).sum := ih (es2, t) hr
          rw [ht2]
  · intro w W it ht h0 h1
    have hct : colorTexts ([] : List Char) [] = [] := rfl
    have hft : fullTitle it = [] := by
      simp [fullTitle, ht, h0, h1, hct]
    have hwrap : wrapLines w W ([] : List Char) = some [] := by
      simp [wrapLines, wrapGo, strW]
    simp only [layoutItem, hft, hwrap, List.getLast?_nil]

/-- Witness for C1: the two-item list `[cbcItem, emptyTitleItem]` lays
out to `cbcPlan` with total 750, which equals the sum of the prices. -/
theorem receipt_total_eq_sum_witness :
    ((cbcPlan, (750 : ℚ)) : List PlanEntry × ℚ).2
      = (([cbcItem, emptyTitleItem]).map RItem.price).sum :=
  receipt_total_eq_sum.1 wOne 190 [cbcItem, emptyTitleItem] (cbcPlan, 750)
    (by with_unfolding_all decide)
